import Mathlib

set_option maxHeartbeats 1000000

/-! Verification of the Merkle-tree core (src/crypto/merkle.rs) and the
transaction signing surface (src/transaction/mod.rs) of prism-rust.

Digests are modelled as byte lists.  The SHA-256 primitive comes from the
external ring crate and the spec treats it as an opaque, deterministic,
collision-resistant function; it is modelled here as a free injection of the
input byte stream, which preserves exactly the properties the spec grants it
(determinism, distinctness of distinct streams). -/

/-- A 256-bit digest (the H256 type of crypto::hash), modelled as a byte list. -/
abbrev H256 : Type := List Nat

/-- The all-zero 32-byte digest, `(&[0; 32]).into()` in the source; also the
default value used when the node array is allocated. -/
def zeroDigest : H256 := List.replicate 32 0

/-- Modelled from the spec: the SHA-256 primitive of the external ring crate
(`ring::digest`, used via `ctx.update(left); ctx.update(right); ctx.finish()`),
treated as an opaque deterministic digest function of the concatenated byte
stream, with no length prefix or separator.  It is embedded as a free
injection so that distinct streams have distinct digests. -/
def sha256 (msg : List Nat) : H256 := 0 :: msg

/-- The layer-size loop of MerkleTree::new (merkle.rs lines 21-34), fuel-based
so that it evaluates by reduction.  Each list entry is one layer, bottom-up,
as the pair (layer_size after duplication, data_size before duplication):
push data_size; if size is 1 this is the root layer, stop; otherwise round an
odd size up to even, push it, and continue with half of it.  Fuel n suffices
because the size strictly decreases. -/
def layerPairsAux : Nat → Nat → List (Nat × Nat)
  | 0, _ => []
  | _ + 1, 0 => []
  | _ + 1, 1 => [(1, 1)]
  | fuel + 1, m + 2 =>
      let p := if (m + 2) % 2 = 1 then m + 3 else m + 2
      (p, m + 2) :: layerPairsAux fuel (p / 2)

/-- The (layer_size, data_size) pairs of MerkleTree::new, bottom-up (leaf layer
first, root layer last), as a function of the leaf count. -/
def layerPairs (n : Nat) : List (Nat × Nat) := layerPairsAux n n

/-- The padded sizes of all layers, bottom-up (the `layer_size` vector). -/
def paddedSizes (n : Nat) : List Nat := (layerPairs n).map Prod.fst

/-- `tree_size = layer_size.iter().sum()` (merkle.rs line 35). -/
def treeSize (n : Nat) : Nat := (paddedSizes n).sum

/-- Number of layers of the tree over n leaves. -/
def numLayers (n : Nat) : Nat := (layerPairs n).length

/-- Absolute index in the flat node array at which layer k (bottom-up count,
0 = leaf layer) starts: the total size of all layers above it, which are
stored before it.  Matches the `layer_start` cursor of the source. -/
def layerStart (n k : Nat) : Nat := ((paddedSizes n).drop (k + 1)).sum

/-- The per-layer padding write `nodes[layer_start + l - 1] =
nodes[layer_start + d - 1]` (merkle.rs lines 49-51 and 66-68) in functional
form: the layer holds its d computed digests and, in its one extra slot, a
copy of the last computed digest. -/
def dupLast (xs : List H256) : List H256 := xs ++ [xs.getLastD zeroDigest]

/-- One pass of the inner hashing loop (merkle.rs lines 57-65): for i in 0..d,
hash the concatenation of the two children at offsets 2i and 2i+1 of the
previous (lower) layer. -/
def hashUp (prev : List H256) (d : Nat) : List H256 :=
  (List.range d).map fun i =>
    sha256 (prev.getD (2 * i) zeroDigest ++ prev.getD (2 * i + 1) zeroDigest)

/-- Apply the padding rule of a layer with sizes ld = (l, d): when l differs
from d (always by exactly one in a tree built by new), duplicate the last
computed digest into the extra slot. -/
def padTo (ld : Nat × Nat) (xs : List H256) : List H256 :=
  if ld.1 ≠ ld.2 then dupLast xs else xs

/-- Build one non-leaf layer from the layer below it. -/
def mkLayer (prev : List H256) (ld : Nat × Nat) : List H256 :=
  padTo ld (hashUp prev ld.2)

/-- The `for (l, d) in layers` loop (merkle.rs lines 54-69): build every layer
above the leaf layer, each from its predecessor, bottom-up. -/
def buildUpper : List H256 → List (Nat × Nat) → List (List H256)
  | _, [] => []
  | prev, ld :: rest =>
      let layer := mkLayer prev ld
      layer :: buildUpper layer rest

/-- All layers of the tree, bottom-up: the leaf layer (the hashes of the data,
merkle.rs line 47-48, padded per lines 49-51) followed by the built upper
layers. -/
def allLayers {T : Type} (hsh : T → H256) (data : List T) : List (List H256) :=
  match layerPairs data.length with
  | [] => []
  | ld :: rest =>
      let leafLayer := padTo ld (data.map hsh)
      leafLayer :: buildUpper leafLayer rest

/-- A Merkle tree: the borrowed data slice and the flat node array. -/
structure MerkleTree (T : Type) where
  data : List T
  nodes : List H256

/-- MerkleTree::new (merkle.rs lines 12-75).  The empty input returns an empty
node array (lines 18-20).  Otherwise the layers are computed bottom-up and
laid out in the flat array with the root layer first (at index 0) and the
leaf layer last, exactly as the decreasing `layer_start` cursor does. -/
def MerkleTree.new {T : Type} (hsh : T → H256) (data : List T) : MerkleTree T :=
  if data.length = 0 then { data := data, nodes := [] }
  else { data := data, nodes := ((allLayers hsh data).reverse).flatten }

/-- MerkleTree::root (merkle.rs lines 77-84): the all-zero digest for an empty
node array, otherwise nodes[0]. -/
def MerkleTree.root {T : Type} (t : MerkleTree T) : H256 :=
  if t.nodes.length = 0 then zeroDigest else t.nodes.getD 0 zeroDigest

/-- The sibling-collection loop of MerkleTree::proof (merkle.rs lines 98-108),
fuel-based so that it evaluates by reduction (fuel = the starting index
always suffices, since (i - 1) >> 1 < i for i > 0).  While the cursor is
non-zero: the sibling index is cursor + 1 when the cursor is odd, else
cursor - 1; push nodes[sibling] (an out-of-bounds access, a Rust panic, is
modelled as none); move the cursor to (cursor - 1) >> 1. -/
def proofLoopAux (nodes : List H256) : Nat → Nat → Option (List H256)
  | _, 0 => some []
  | 0, _ + 1 => none
  | fuel + 1, k + 1 =>
      let sib := if (k + 1) % 2 = 1 then k + 2 else k
      match nodes.get? sib with
      | none => none
      | some v =>
          match proofLoopAux nodes fuel (k / 2) with
          | none => none
          | some rest => some (v :: rest)

/-- MerkleTree::get_proof_from_index (merkle.rs lines 114-117) composed with
MerkleTree::proof (lines 86-110).  `self.data[index]` panics (none) when the
index is out of range; otherwise the ptr::eq position scan resolves to the
given index itself.  The starting cursor is nodes.len() - data.len() - 1 +
index when the leaf count is odd, nodes.len() - data.len() + index when it is
even (lines 93-97); the usize subtractions panic on underflow, which is
modelled as none. -/
def MerkleTree.get_proof_from_index {T : Type} (t : MerkleTree T) (index : Nat) :
    Option (List H256) :=
  if index < t.data.length then
    if t.data.length % 2 = 1 then
      if t.data.length + 1 ≤ t.nodes.length then
        proofLoopAux t.nodes (t.nodes.length - t.data.length - 1 + index)
          (t.nodes.length - t.data.length - 1 + index)
      else none
    else
      if t.data.length ≤ t.nodes.length then
        proofLoopAux t.nodes (t.nodes.length - t.data.length + index)
          (t.nodes.length - t.data.length + index)
      else none
  else none

/-- The descending power-of-two list [2^(t-1), ..., 2, 1]. -/
def pow2Desc : Nat → List Nat
  | 0 => []
  | t + 1 => 2 ^ t :: pow2Desc t

/-- The leaf counts for which the flat layout obeys the canonical
implicit-binary-tree index law: every layer above the leaf layer has a
power-of-two padded size.  (Equivalently: n ≤ 2, or 2^k - 3 ≤ n ≤ 2^k for
some k.  The first leaf count violating it is n = 9.) -/
def pow2Chain (n : Nat) : Bool :=
  (paddedSizes n).drop 1 == pow2Desc ((paddedSizes n).length - 1)

/-- A concrete injective leaf-digest assignment used for concrete instances. -/
def natLeaf (k : Nat) : H256 := [k]

/-- Seven concrete leaves, matching the shape of the fixed test vector. -/
def leaves7 : List Nat := [0, 1, 2, 3, 4, 5, 6]

/-- Nine concrete leaves: the smallest leaf count whose layout breaks the
canonical index law. -/
def leaves9 : List Nat := [0, 1, 2, 3, 4, 5, 6, 7, 8]

/-- Three concrete leaves, used for out-of-range checks. -/
def leaves3 : List Nat := [0, 1, 2]

/-! Transaction data model (src/transaction/mod.rs).  The signature scheme and
the bincode wire encoding live in crypto::sign and the external bincode crate;
the spec treats both as external collaborators, so they are modelled as opaque
deterministic functions. -/

/-- A unique identifier of a transaction output (transaction/mod.rs lines
6-12). -/
structure CoinId where
  hash : H256
  index : Nat
  deriving DecidableEq

/-- An input of a transaction (transaction/mod.rs lines 23-35). -/
structure Input where
  coin : CoinId
  value : Nat
  owner : H256
  deriving DecidableEq

/-- An output of a transaction (transaction/mod.rs lines 46-52). -/
structure Output where
  value : Nat
  recipient : H256
  deriving DecidableEq

/-- A signature, modelled as its byte list. -/
abbrev Signature : Type := List Nat

/-- Modelled from the spec: a public key of the external signature scheme
(crypto::sign, not under src/), carrying its verification routine
`public_key.verify(&raw, signature)` as an opaque function of the raw byte
stream and the signature. -/
structure PubKey where
  verifyBytes : List Nat → Signature → Bool

/-- Modelled from the spec: a keypair of the external signature scheme
(crypto::sign, not under src/), carrying its signing routine
`keypair.sign(&raw)` as an opaque function of the raw byte stream. -/
structure KeyPair where
  signBytes : List Nat → Signature

/-- Authorization of the transaction by the owner of an input coin
(transaction/mod.rs lines 117-123). -/
structure Authorization where
  pubkey : PubKey
  signature : Signature

/-- A Prism transaction (transaction/mod.rs lines 64-72). -/
structure Transaction where
  input : List Input
  output : List Output
  authorization : List Authorization

/-- Modelled from the spec: the bincode encoding of a CoinId, an opaque
deterministic byte encoding of its fields. -/
def serializeCoinId (c : CoinId) : List Nat := c.hash ++ [c.index]

/-- Modelled from the spec: the bincode encoding of an Input. -/
def serializeInput (i : Input) : List Nat :=
  serializeCoinId i.coin ++ [i.value] ++ i.owner

/-- Modelled from the spec: the bincode encoding of an Output. -/
def serializeOutput (o : Output) : List Nat := [o.value] ++ o.recipient

/-- Modelled from the spec: bincode `serialize(&self.input)`, the external
length-delimited encoding of the input vector. -/
def serializeInputs (v : List Input) : List Nat :=
  v.length :: (v.map serializeInput).flatten

/-- Modelled from the spec: bincode `serialize(&self.output)`. -/
def serializeOutputs (v : List Output) : List Nat :=
  v.length :: (v.map serializeOutput).flatten

/-- Signable::sign for Transaction (transaction/mod.rs lines 99-105): only the
inputs and the outputs are serialized and concatenated into the raw message;
the authorization field is never read. -/
def Transaction.sign (t : Transaction) (keypair : KeyPair) : Signature :=
  keypair.signBytes (serializeInputs t.input ++ serializeOutputs t.output)

/-- Signable::verify for Transaction (transaction/mod.rs lines 107-113): the
same raw message of inputs and outputs is checked against the signature. -/
def Transaction.verify (t : Transaction) (public_key : PubKey)
    (signature : Signature) : Bool :=
  public_key.verifyBytes (serializeInputs t.input ++ serializeOutputs t.output)
    signature

/-- The padding rule applied to one data size: odd sizes other than 1 are
rounded up to even; the root layer and even layers are unchanged. -/
def padOf (d : Nat) : Nat := if d % 2 = 1 ∧ d ≠ 1 then d + 1 else d

/-- The data size (real node count) of layer k of the tree over n leaves. -/
def dsizeAt (n k : Nat) : Nat := ((layerPairs n).getD k (0, 0)).2

/-- Concrete objects for the transaction witness. -/
def coin0 : CoinId := { hash := List.replicate 32 1, index := 0 }

/-- A concrete input. -/
def input0 : Input := { coin := coin0, value := 5, owner := List.replicate 32 2 }

/-- A concrete output. -/
def output0 : Output := { value := 5, recipient := List.replicate 32 3 }

/-- A concrete public key whose verification routine accepts everything. -/
def pk0 : PubKey := { verifyBytes := fun _ _ => true }

/-- A concrete keypair whose signing routine echoes the message. -/
def kp0 : KeyPair := { signBytes := fun m => m }

/-- A concrete authorization entry. -/
def auth0 : Authorization := { pubkey := pk0, signature := [7] }

/-- A concrete transaction with no authorization entries. -/
def tx1 : Transaction := { input := [input0], output := [output0], authorization := [] }

/-- The same transaction with one authorization entry. -/
def tx2 : Transaction := { input := [input0], output := [output0], authorization := [auth0] }


example : treeSize 7 = 15 := by decide
example : paddedSizes 9 = [10, 6, 4, 2, 1] := by decide
example : pow2Chain 7 = true := by decide
example : pow2Chain 9 = false := by decide
example : (MerkleTree.new natLeaf leaves7).nodes.length = 15 := by decide
example :
    (MerkleTree.new natLeaf leaves7).get_proof_from_index 2 =
      some [(MerkleTree.new natLeaf leaves7).nodes.getD 10 zeroDigest,
        (MerkleTree.new natLeaf leaves7).nodes.getD 3 zeroDigest,
        (MerkleTree.new natLeaf leaves7).nodes.getD 2 zeroDigest] := by decide
example : (MerkleTree.new natLeaf [5]).get_proof_from_index 0 = none := by decide
example :
    ((MerkleTree.new natLeaf leaves9).get_proof_from_index 0).map List.length =
      some 3 := by decide

/-! Helper lemmas about the layer-size table. -/

theorem layerPairsAux_zero (f : Nat) : layerPairsAux f 0 = [] := by
  cases f <;> rfl

theorem layerPairsAux_congr :
    ∀ f g n, n ≤ f → n ≤ g → layerPairsAux f n = layerPairsAux g n := by
  intro f
  induction f with
  | zero =>
      intro g n hf _
      interval_cases n
      exact (layerPairsAux_zero g).symm
  | succ f ih =>
      intro g n hf hg
      match n, g with
      | 0, g => rw [layerPairsAux_zero, layerPairsAux_zero]
      | 1, g + 1 => rfl
      | m + 2, g + 1 =>
          show (_ :: layerPairsAux f _) = (_ :: layerPairsAux g _)
          have hstep : (if (m + 2) % 2 = 1 then m + 3 else m + 2) / 2 ≤ m + 1 := by
            split <;> omega
          rw [ih g _ (by omega) (by omega)]

theorem layerPairs_one : layerPairs 1 = [(1, 1)] := rfl

theorem layerPairs_step (n : Nat) (h : 2 ≤ n) :
    layerPairs n = (padOf n, n) :: layerPairs (padOf n / 2) := by
  obtain ⟨m, rfl⟩ : ∃ m, n = m + 2 := ⟨n - 2, by omega⟩
  have hpad : padOf (m + 2) = if (m + 2) % 2 = 1 then m + 3 else m + 2 := by
    unfold padOf
    split
    · rename_i hodd
      rw [if_pos hodd.1]
    · rename_i hno
      have heven : ¬ (m + 2) % 2 = 1 := by
        intro hodd
        exact hno ⟨hodd, by omega⟩
      rw [if_neg heven]
  show layerPairsAux (m + 2) (m + 2) = _
  show (_ :: layerPairsAux (m + 1) _) = _
  rw [hpad]
  congr 1
  exact layerPairsAux_congr (m + 1) _ _ (by split <;> omega) le_rfl

theorem layerPairs_nonempty (n : Nat) (h : 1 ≤ n) : layerPairs n ≠ [] := by
  rcases Nat.lt_or_ge n 2 with h2 | h2
  · interval_cases n
    simp [layerPairs_one]
  · rw [layerPairs_step n h2]
    simp

theorem layerPairs_shape (n : Nat) :
    ∀ p ∈ layerPairs n, 1 ≤ p.2 ∧ p.1 = padOf p.2 := by
  induction n using Nat.strong_induction_on with
  | _ n ih =>
      intro p hp
      rcases Nat.lt_or_ge n 2 with h2 | h2
      · interval_cases n
        · simp [layerPairs, layerPairsAux] at hp
        · rw [layerPairs_one] at hp
          simp at hp
          subst hp
          exact ⟨le_rfl, rfl⟩
      · rw [layerPairs_step n h2] at hp
        rcases List.mem_cons.mp hp with h | h
        · subst h
          exact ⟨by omega, rfl⟩
        · exact ih (padOf n / 2) (by unfold padOf; split <;> omega) p h

theorem layerPairs_head_dsize (n : Nat) (h : 1 ≤ n) :
    ((layerPairs n).getD 0 (0, 0)).2 = n := by
  rcases Nat.lt_or_ge n 2 with h2 | h2
  · interval_cases n
    rfl
  · rw [layerPairs_step n h2]
    rfl

theorem layerPairs_chain (n : Nat) :
    ∀ k, k + 1 < numLayers n →
      ((layerPairs n).getD (k + 1) (0, 0)).2 = ((layerPairs n).getD k (0, 0)).1 / 2 ∧
      ((layerPairs n).getD k (0, 0)).1 % 2 = 0 := by
  induction n using Nat.strong_induction_on with
  | _ n ih =>
      intro k hk
      have h2 : 2 ≤ n := by
        by_contra hlt
        have : n = 0 ∨ n = 1 := by omega
        rcases this with rfl | rfl
        · simp [numLayers, layerPairs, layerPairsAux] at hk
        · rw [numLayers, layerPairs_one] at hk
          simp at hk
      have hstep := layerPairs_step n h2
      have hrec : 1 ≤ padOf n / 2 := by unfold padOf; split <;> omega
      have hlt : padOf n / 2 < n := by unfold padOf; split <;> omega
      cases k with
      | zero =>
          rw [hstep]
          constructor
          · show ((layerPairs (padOf n / 2)).getD 0 (0, 0)).2 = padOf n / 2
            exact layerPairs_head_dsize _ hrec
          · show padOf n % 2 = 0
            unfold padOf
            split <;> omega
      | succ k =>
          rw [hstep]
          show ((layerPairs (padOf n / 2)).getD (k + 1) (0, 0)).2 = _ ∧ _
          have hk2 : k + 1 < numLayers (padOf n / 2) := by
            rw [numLayers] at hk ⊢
            rw [hstep] at hk
            simpa using hk
          exact ih (padOf n / 2) hlt k hk2

theorem numLayers_pos (n : Nat) (h : 1 ≤ n) : 1 ≤ numLayers n := by
  rw [numLayers]
  have := layerPairs_nonempty n h
  cases hc : layerPairs n
  · exact absurd hc this
  · simp

theorem numLayers_two (n : Nat) (h : 2 ≤ n) : 2 ≤ numLayers n := by
  rw [numLayers, layerPairs_step n h]
  have hrec : 1 ≤ padOf n / 2 := by unfold padOf; split <;> omega
  have := numLayers_pos (padOf n / 2) hrec
  rw [numLayers] at this
  simp
  omega

/-! Lengths of the constructed layers and of the flat node array. -/

theorem length_hashUp (prev : List H256) (d : Nat) : (hashUp prev d).length = d := by
  simp [hashUp]

theorem length_padTo (ld : Nat × Nat) (xs : List H256)
    (hshape : ld.1 = padOf ld.2) (hlen : xs.length = ld.2) :
    (padTo ld xs).length = ld.1 := by
  rw [padTo]
  split
  · rename_i hne
    have : ld.1 = ld.2 + 1 := by
      rw [hshape] at hne ⊢
      unfold padOf at hne ⊢
      by_cases hc : ld.2 % 2 = 1 ∧ ld.2 ≠ 1
      · rw [if_pos hc]
      · rw [if_neg hc] at hne
        exact absurd rfl hne
    simp [dupLast, hlen, this]
  · rename_i heq
    simp at heq
    simp [hlen, heq]

theorem buildUpper_lengths :
    ∀ (pairs : List (Nat × Nat)) (prev : List H256),
      (∀ p ∈ pairs, p.1 = padOf p.2) →
      (buildUpper prev pairs).map List.length = pairs.map Prod.fst := by
  intro pairs
  induction pairs with
  | nil => intro prev _; rfl
  | cons ld rest ih =>
      intro prev hshape
      show (mkLayer prev ld).length :: _ = ld.1 :: _
      have h1 : (mkLayer prev ld).length = ld.1 :=
        length_padTo ld _ (hshape ld (by simp)) (length_hashUp prev ld.2)
      rw [h1, ih (mkLayer prev ld) (fun p hp => hshape p (by simp [hp]))]

theorem allLayers_lengths {T : Type} (hsh : T → H256) (data : List T) :
    (allLayers hsh data).map List.length = paddedSizes data.length := by
  rcases Nat.eq_zero_or_pos data.length with h0 | h1
  · rw [allLayers, paddedSizes, h0]
    simp [layerPairs, layerPairsAux]
  · rw [allLayers, paddedSizes]
    cases hc : layerPairs data.length with
    | nil => exact absurd hc (layerPairs_nonempty _ h1)
    | cons ld rest =>
        have hshape : ∀ p ∈ layerPairs data.length, p.1 = padOf p.2 :=
          fun p hp => (layerPairs_shape _ p hp).2
        rw [hc] at hshape
        show (padTo ld (data.map hsh)).length :: _ = ld.1 :: _
        have hd : ld.2 = data.length := by
          have := layerPairs_head_dsize data.length h1
          rw [hc] at this
          simpa using this
        have h1 : (padTo ld (data.map hsh)).length = ld.1 :=
          length_padTo ld _ (hshape ld (by simp)) (by simp [hd])
        rw [h1,
          buildUpper_lengths rest _ (fun p hp => hshape p (by simp [hp]))]

theorem new_nodes {T : Type} (hsh : T → H256) (data : List T) :
    (MerkleTree.new hsh data).nodes = ((allLayers hsh data).reverse).flatten := by
  rw [MerkleTree.new]
  split
  · rename_i h0
    have : layerPairs data.length = [] := by rw [h0]; rfl
    simp [allLayers, this]
  · rfl

theorem new_data {T : Type} (hsh : T → H256) (data : List T) :
    (MerkleTree.new hsh data).data = data := by
  rw [MerkleTree.new]
  split <;> rfl

theorem nodes_length {T : Type} (hsh : T → H256) (data : List T) :
    (MerkleTree.new hsh data).nodes.length = treeSize data.length := by
  rw [new_nodes, treeSize, List.length_flatten, List.map_reverse,
    List.sum_reverse, allLayers_lengths]

/-! Indexing the flat node array: layer k, position j sits at absolute index
layerStart + j, and the flattened reversed layer list agrees with the layer
contents there. -/

theorem getD_eq_getElem_of_lt {α : Type} (l : List α) (d : α) (k : Nat)
    (hk : k < l.length) : l.getD k d = l[k] := by
  rw [List.getD_eq_getElem?_getD, List.getElem?_eq_getElem hk]
  rfl

theorem getD_add_drop_sum_le (l : List Nat) (k : Nat) (hk : k < l.length) :
    l.getD k 0 + (l.drop (k + 1)).sum ≤ l.sum := by
  have h1 : l.drop k = l[k] :: l.drop (k + 1) := List.drop_eq_getElem_cons hk
  have h2 : (l.take k).sum + (l.drop k).sum = l.sum := List.sum_take_add_sum_drop l k
  have h3 : l.getD k 0 = l[k] := getD_eq_getElem_of_lt l 0 k hk
  have h4 : (l.drop k).sum = l[k] + (l.drop (k + 1)).sum := by
    rw [h1, List.sum_cons]
  omega

theorem flatten_reverse_getElem? :
    ∀ (Ls : List (List H256)) (k j : Nat), k < Ls.length →
      j < (Ls.getD k []).length →
      (Ls.reverse.flatten)[((Ls.map List.length).drop (k + 1)).sum + j]? =
        (Ls.getD k [])[j]? := by
  intro Ls
  induction Ls with
  | nil =>
      intro k j hk _
      simp at hk
  | cons a L ih =>
      intro k j hk hj
      have hflat : ((a :: L).reverse).flatten = L.reverse.flatten ++ a := by
        rw [List.reverse_cons, List.flatten_append]
        simp
      have hlen : L.reverse.flatten.length = (L.map List.length).sum := by
        rw [List.length_flatten, List.map_reverse, List.sum_reverse]
      cases k with
      | zero =>
          have hdrop : ((a :: L).map List.length).drop 1 = L.map List.length := by
            simp
          rw [hflat, hdrop, List.getElem?_append_right (by omega)]
          congr 1
          omega
      | succ k =>
          have hk2 : k < L.length := by simpa using hk
          have hj2 : j < (L.getD k []).length := by
            rw [List.getD_cons_succ] at hj
            exact hj
          have hdrop : ((a :: L).map List.length).drop (k + 2) =
              (L.map List.length).drop (k + 1) := by
            simp [List.drop_succ_cons]
          have hglen : (L.getD k []).length = (L.map List.length).getD k 0 := by
            simpa using (List.getD_map L ([] : List H256) List.length).symm
          have hidx : ((L.map List.length).drop (k + 1)).sum + j <
              L.reverse.flatten.length := by
            rw [hlen]
            have := getD_add_drop_sum_le (L.map List.length) k (by simpa using hk2)
            omega
          rw [hflat, hdrop, List.getElem?_append_left hidx, List.getD_cons_succ]
          exact ih k j hk2 hj2

theorem numLayers_eq_paddedSizes_length (n : Nat) :
    numLayers n = (paddedSizes n).length := by
  rw [numLayers, paddedSizes, List.length_map]

theorem allLayers_length {T : Type} (hsh : T → H256) (data : List T) :
    (allLayers hsh data).length = numLayers data.length := by
  have h := allLayers_lengths hsh data
  have := congrArg List.length h
  rw [List.length_map, numLayers_eq_paddedSizes_length] at *
  omega

theorem allLayers_getD_length {T : Type} (hsh : T → H256) (data : List T) (k : Nat) :
    ((allLayers hsh data).getD k []).length = (paddedSizes data.length).getD k 0 := by
  rw [← allLayers_lengths hsh data]
  simpa using (List.getD_map (allLayers hsh data) ([] : List H256) List.length).symm

theorem new_nodes_getElem? {T : Type} (hsh : T → H256) (data : List T) (k j : Nat)
    (hk : k < numLayers data.length)
    (hj : j < ((allLayers hsh data).getD k []).length) :
    (MerkleTree.new hsh data).nodes[layerStart data.length k + j]? =
      ((allLayers hsh data).getD k [])[j]? := by
  rw [new_nodes, layerStart, ← allLayers_lengths hsh data]
  exact flatten_reverse_getElem? (allLayers hsh data) k j
    (by rw [allLayers_length]; exact hk) hj

theorem paddedSizes_getD (n k : Nat) :
    (paddedSizes n).getD k 0 = ((layerPairs n).getD k (0, 0)).1 := by
  rw [paddedSizes]
  simpa using (List.getD_map (layerPairs n) ((0, 0) : Nat × Nat) Prod.fst)

theorem layerPairs_getD_mem (n k : Nat) (hk : k < numLayers n) :
    (layerPairs n).getD k (0, 0) ∈ layerPairs n := by
  rw [numLayers] at hk
  rw [getD_eq_getElem_of_lt _ _ k hk]
  exact List.getElem_mem hk

/-! The chain of layers: each non-leaf layer is mkLayer of the layer below it,
and its computed entries hash the two children at offsets 2j and 2j+1. -/

theorem buildUpper_cons (prev : List H256) (ld : Nat × Nat)
    (rest : List (Nat × Nat)) :
    buildUpper prev (ld :: rest) = mkLayer prev ld :: buildUpper (mkLayer prev ld) rest :=
  rfl

theorem buildUpper_chain :
    ∀ (pairs : List (Nat × Nat)) (prev : List H256) (k : Nat), k < pairs.length →
      (prev :: buildUpper prev pairs).getD (k + 1) [] =
        mkLayer ((prev :: buildUpper prev pairs).getD k []) (pairs.getD k (0, 0)) := by
  intro pairs
  induction pairs with
  | nil =>
      intro prev k hk
      simp at hk
  | cons ld rest ih =>
      intro prev k hk
      cases k with
      | zero =>
          rw [buildUpper_cons]
          rfl
      | succ k =>
          have hk2 : k < rest.length := by simpa using hk
          have h := ih (mkLayer prev ld) k hk2
          simp only [List.getD_cons_succ] at h
          rw [buildUpper_cons]
          simp only [List.getD_cons_succ]
          exact h

theorem allLayers_chain {T : Type} (hsh : T → H256) (data : List T) (k : Nat)
    (hk : k + 1 < numLayers data.length) :
    (allLayers hsh data).getD (k + 1) [] =
      mkLayer ((allLayers hsh data).getD k [])
        ((layerPairs data.length).getD (k + 1) (0, 0)) := by
  have h1 : 1 ≤ data.length := by
    by_contra hc
    have h0 : data.length = 0 := by omega
    rw [numLayers, h0] at hk
    simp [layerPairs, layerPairsAux] at hk
  cases hc : layerPairs data.length with
  | nil => exact absurd hc (layerPairs_nonempty _ h1)
  | cons ld rest =>
      have hall : allLayers hsh data =
          padTo ld (data.map hsh) :: buildUpper (padTo ld (data.map hsh)) rest := by
        rw [allLayers, hc]
      have hk2 : k < rest.length := by
        rw [numLayers, hc] at hk
        simpa using hk
      rw [hall,
        show (ld :: rest).getD (k + 1) ((0, 0) : Nat × Nat) = rest.getD k (0, 0) from
          List.getD_cons_succ]
      exact buildUpper_chain rest _ k hk2

theorem hashUp_getElem? (prev : List H256) (d j : Nat) (hj : j < d) :
    (hashUp prev d)[j]? =
      some (sha256 (prev.getD (2 * j) zeroDigest ++ prev.getD (2 * j + 1) zeroDigest)) := by
  rw [hashUp, List.getElem?_map, List.getElem?_range hj]
  rfl

theorem padTo_getElem?_lt (ld : Nat × Nat) (xs : List H256) (j : Nat)
    (hj : j < xs.length) : (padTo ld xs)[j]? = xs[j]? := by
  rw [padTo]
  split
  · rw [dupLast]
    exact List.getElem?_append_left hj
  · rfl

theorem mkLayer_getElem? (prev : List H256) (ld : Nat × Nat) (j : Nat)
    (hj : j < ld.2) :
    (mkLayer prev ld)[j]? =
      some (sha256 (prev.getD (2 * j) zeroDigest ++ prev.getD (2 * j + 1) zeroDigest)) := by
  rw [mkLayer, padTo_getElem?_lt _ _ _ (by rw [length_hashUp]; exact hj),
    hashUp_getElem? prev ld.2 j hj]

theorem node_parent_hash {T : Type} (hsh : T → H256) (data : List T) (k j : Nat)
    (hk : k + 1 < numLayers data.length) (hj : j < dsizeAt data.length (k + 1)) :
    (MerkleTree.new hsh data).nodes[layerStart data.length (k + 1) + j]? =
      some (sha256
        ((MerkleTree.new hsh data).nodes.getD
            (layerStart data.length k + 2 * j) zeroDigest ++
         (MerkleTree.new hsh data).nodes.getD
            (layerStart data.length k + 2 * j + 1) zeroDigest)) := by
  have hmem := layerPairs_getD_mem data.length (k + 1) hk
  have hshape := layerPairs_shape data.length _ hmem
  have hchain := layerPairs_chain data.length k hk
  have hup := allLayers_chain hsh data k hk
  have hpad_ge : dsizeAt data.length (k + 1) ≤
      ((layerPairs data.length).getD (k + 1) (0, 0)).1 := by
    rw [hshape.2]
    unfold padOf dsizeAt
    split <;> omega
  have hlabove : j < ((allLayers hsh data).getD (k + 1) []).length := by
    rw [allLayers_getD_length, paddedSizes_getD]
    omega
  have hklt : k < numLayers data.length := by omega
  have h2j : 2 * j + 1 < ((allLayers hsh data).getD k []).length := by
    rw [allLayers_getD_length, paddedSizes_getD]
    have h1 := hchain.1
    have h2 := hchain.2
    rw [dsizeAt] at hj
    omega
  have e1 : (MerkleTree.new hsh data).nodes.getD
      (layerStart data.length k + 2 * j) zeroDigest =
      ((allLayers hsh data).getD k []).getD (2 * j) zeroDigest := by
    rw [List.getD_eq_getElem?_getD, List.getD_eq_getElem?_getD,
      new_nodes_getElem? hsh data k (2 * j) hklt (by omega)]
  have e2 : (MerkleTree.new hsh data).nodes.getD
      (layerStart data.length k + 2 * j + 1) zeroDigest =
      ((allLayers hsh data).getD k []).getD (2 * j + 1) zeroDigest := by
    have h := new_nodes_getElem? hsh data k (2 * j + 1) hklt h2j
    rw [← Nat.add_assoc] at h
    rw [List.getD_eq_getElem?_getD, List.getD_eq_getElem?_getD, h]
  rw [new_nodes_getElem? hsh data (k + 1) j hk hlabove, hup,
    mkLayer_getElem? _ _ j hj, e1, e2]

/-! The power-of-two chain condition and the absolute layer-start formula. -/

theorem pow2Desc_length (t : Nat) : (pow2Desc t).length = t := by
  induction t with
  | zero => rfl
  | succ t ih => simp [pow2Desc, ih]

theorem pow2Desc_sum (t : Nat) : (pow2Desc t).sum = 2 ^ t - 1 := by
  induction t with
  | zero => rfl
  | succ t ih =>
      have hpos : 1 ≤ 2 ^ t := Nat.one_le_two_pow
      have hpow : 2 ^ (t + 1) = 2 * 2 ^ t := by rw [pow_succ]; ring
      rw [pow2Desc, List.sum_cons, ih]
      omega

theorem pow2Desc_drop : ∀ t j, (pow2Desc t).drop j = pow2Desc (t - j) := by
  intro t
  induction t with
  | zero => intro j; simp [pow2Desc]
  | succ t ih =>
      intro j
      cases j with
      | zero => rfl
      | succ j =>
          rw [pow2Desc, List.drop_succ_cons, ih j]
          congr 1
          omega

theorem pow2Chain_sizes (n : Nat) (hp : pow2Chain n = true) :
    (paddedSizes n).drop 1 = pow2Desc (numLayers n - 1) := by
  rw [pow2Chain] at hp
  rw [numLayers_eq_paddedSizes_length]
  exact eq_of_beq hp

theorem layerStart_pow2 (n : Nat) (hp : pow2Chain n = true) (k : Nat) :
    layerStart n k = 2 ^ (numLayers n - 1 - k) - 1 := by
  rw [layerStart,
    show k + 1 = 1 + k by omega, ← List.drop_drop,
    pow2Chain_sizes n hp, pow2Desc_drop, pow2Desc_sum]

theorem pow2Desc_getD (t j : Nat) (hj : j < t) :
    (pow2Desc t).getD j 0 = 2 ^ (t - 1 - j) := by
  have hdrop := pow2Desc_drop t j
  have hlt : j < (pow2Desc t).length := by rw [pow2Desc_length]; exact hj
  have h1 : (pow2Desc t).getD j 0 = ((pow2Desc t).drop j).getD 0 0 := by
    rw [getD_eq_getElem_of_lt _ _ j hlt]
    have h2 : (pow2Desc t).drop j = (pow2Desc t)[j] :: (pow2Desc t).drop (j + 1) :=
      List.drop_eq_getElem_cons hlt
    rw [h2, List.getD_cons_zero]
  rw [h1, hdrop]
  obtain ⟨s, hs⟩ : ∃ s, t - j = s + 1 := ⟨t - j - 1, by omega⟩
  rw [hs, pow2Desc, List.getD_cons_zero]
  congr 1
  omega

theorem getD_drop_one (l : List Nat) (k : Nat) (h1 : 1 ≤ k) :
    l.getD k 0 = (l.drop 1).getD (k - 1) 0 := by
  rw [List.getD_eq_getElem?_getD, List.getD_eq_getElem?_getD]
  congr 1
  rw [List.getElem?_drop]
  congr 1
  omega

theorem paddedSizes_getD_pow2 (n : Nat) (hp : pow2Chain n = true) (k : Nat)
    (h1 : 1 ≤ k) (hk : k < numLayers n) :
    (paddedSizes n).getD k 0 = 2 ^ (numLayers n - 1 - k) := by
  rw [getD_drop_one _ k h1, pow2Chain_sizes n hp, pow2Desc_getD _ _ (by omega)]
  congr 1
  omega

/-! Decomposing an absolute node index into its layer and offset. -/

theorem paddedSizes_nonempty (n : Nat) (h : 1 ≤ n) : (paddedSizes n).length ≠ 0 := by
  rw [← numLayers_eq_paddedSizes_length]
  have := numLayers_pos n h
  omega

theorem treeSize_split (n : Nat) (h : 1 ≤ n) :
    treeSize n = (paddedSizes n).getD 0 0 + layerStart n 0 := by
  rw [treeSize, layerStart]
  cases hc : paddedSizes n with
  | nil =>
      exfalso
      exact paddedSizes_nonempty n h (by rw [hc]; rfl)
  | cons a l =>
      rw [List.sum_cons, List.getD_cons_zero, List.drop_succ_cons, List.drop_zero]

theorem paddedSizes_head (n : Nat) (h : 1 ≤ n) :
    (paddedSizes n).getD 0 0 = padOf n := by
  rw [paddedSizes_getD]
  have hmem := layerPairs_getD_mem n 0 (numLayers_pos n h)
  have hshape := layerPairs_shape n _ hmem
  have hdsize := layerPairs_head_dsize n h
  rw [hshape.2, hdsize]

theorem padOf_bounds (d : Nat) : d ≤ padOf d ∧ padOf d ≤ d + 1 := by
  unfold padOf
  split <;> omega

theorem index_decomp (n i : Nat) (hp : pow2Chain n = true) (h2 : 2 ≤ n)
    (h0 : 0 < i) (hi : i < treeSize n) :
    ∃ k j, k + 1 < numLayers n ∧ j < (paddedSizes n).getD k 0 ∧
      i = layerStart n k + j := by
  have hnl := numLayers_two n h2
  have hstart0 : layerStart n 0 = 2 ^ (numLayers n - 1) - 1 := by
    have := layerStart_pow2 n hp 0
    simpa using this
  have hsplit := treeSize_split n (by omega)
  have hpow0 : 1 ≤ 2 ^ (numLayers n - 1) := Nat.one_le_two_pow
  by_cases hcase : 2 ^ (numLayers n - 1) - 1 ≤ i
  · exact ⟨0, i - (2 ^ (numLayers n - 1) - 1), by omega, by omega, by omega⟩
  · have hi1 : i + 1 ≥ 2 := by omega
    have hs1 : 2 ^ Nat.log2 (i + 1) ≤ i + 1 := Nat.log2_self_le (by omega)
    have hs2 : i + 1 < 2 ^ (Nat.log2 (i + 1) + 1) := Nat.lt_log2_self
    have hsge1 : 1 ≤ Nat.log2 (i + 1) := by
      by_contra hc
      have h00 : Nat.log2 (i + 1) = 0 := by omega
      rw [h00] at hs2
      simp at hs2
      omega
    have hs_lt : Nat.log2 (i + 1) < numLayers n - 1 := by
      by_contra hc
      have hge : numLayers n - 1 ≤ Nat.log2 (i + 1) := by omega
      have := Nat.pow_le_pow_right (by omega : 1 ≤ 2) hge
      omega
    have hkval : numLayers n - 1 - (numLayers n - 1 - Nat.log2 (i + 1)) =
        Nat.log2 (i + 1) := by omega
    have hsize := paddedSizes_getD_pow2 n hp (numLayers n - 1 - Nat.log2 (i + 1))
      (by omega) (by omega)
    rw [hkval] at hsize
    have hstart := layerStart_pow2 n hp (numLayers n - 1 - Nat.log2 (i + 1))
    rw [hkval] at hstart
    have hpows : 2 ^ (Nat.log2 (i + 1) + 1) = 2 * 2 ^ Nat.log2 (i + 1) := by
      rw [pow_succ]
      ring
    exact ⟨numLayers n - 1 - Nat.log2 (i + 1), i - (2 ^ Nat.log2 (i + 1) - 1),
      by omega, by omega, by omega⟩

/-! The canonical implicit-binary-tree index law, under the power-of-two chain
condition. -/

/-- Claim C1 (amended): the canonical implicit-binary-tree index law holds for
every leaf count whose non-leaf layers all have power-of-two padded sizes
(pow2Chain; equivalently n at most 2 or within 3 of a power of two from
below), but not for every leaf count: for every non-root index i of the node
array, the node at index (i - 1) >> 1 holds the hash of node i and its
sibling, where the sibling is node i + 1 when i is odd and node i - 1 when i
is even.  The first violating leaf count is n = 9 (see the counterexample). -/
theorem merkle_parent_sibling_law {T : Type} (hsh : T → H256) (data : List T)
    (hp : pow2Chain data.length = true) (i : Nat) (h0 : 0 < i)
    (hi : i < (MerkleTree.new hsh data).nodes.length) :
    (i % 2 = 1 →
      (MerkleTree.new hsh data).nodes[(i - 1) / 2]? =
        some (sha256 ((MerkleTree.new hsh data).nodes.getD i zeroDigest ++
          (MerkleTree.new hsh data).nodes.getD (i + 1) zeroDigest))) ∧
    (i % 2 = 0 →
      (MerkleTree.new hsh data).nodes[(i - 1) / 2]? =
        some (sha256 ((MerkleTree.new hsh data).nodes.getD (i - 1) zeroDigest ++
          (MerkleTree.new hsh data).nodes.getD i zeroDigest))) := by
  have hN := nodes_length hsh data
  have h2 : 2 ≤ data.length := by
    by_contra hc
    have ht0 : treeSize 0 = 0 := rfl
    have ht1 : treeSize 1 = 1 := rfl
    have : data.length = 0 ∨ data.length = 1 := by omega
    rcases this with h | h <;> rw [h] at hN <;> omega
  obtain ⟨k, j, hk, hj, hieq⟩ := index_decomp data.length i hp h2 h0 (by omega)
  have hchain := layerPairs_chain data.length k hk
  have hsizes := paddedSizes_getD data.length k
  have hj2 : j / 2 < dsizeAt data.length (k + 1) := by
    have h1 := hchain.1
    have h2c := hchain.2
    rw [dsizeAt, h1]
    rw [hsizes] at hj
    omega
  have hph := node_parent_hash hsh data k (j / 2) hk hj2
  have hstartk := layerStart_pow2 data.length hp k
  have hstartk1 := layerStart_pow2 data.length hp (k + 1)
  have hB : 1 ≤ 2 ^ (numLayers data.length - 1 - (k + 1)) := Nat.one_le_two_pow
  have hpow : 2 ^ (numLayers data.length - 1 - k) =
      2 * 2 ^ (numLayers data.length - 1 - (k + 1)) := by
    have he : numLayers data.length - 1 - k =
        (numLayers data.length - 1 - (k + 1)) + 1 := by omega
    rw [he, pow_succ]
    ring
  rw [hstartk] at hieq
  constructor
  · intro hpar
    have e1 : (i - 1) / 2 = layerStart data.length (k + 1) + j / 2 := by
      rw [hstartk1]
      omega
    have e2 : layerStart data.length k + 2 * (j / 2) = i := by
      rw [hstartk]
      omega
    rw [e1, hph, e2]
  · intro hpar
    have e1 : (i - 1) / 2 = layerStart data.length (k + 1) + j / 2 := by
      rw [hstartk1]
      omega
    have e3 : layerStart data.length k + 2 * (j / 2) + 1 = i := by
      rw [hstartk]
      omega
    have e2 : layerStart data.length k + 2 * (j / 2) = i - 1 := by
      rw [hstartk]
      omega
    rw [e1, hph, e3, e2]

/-! The sibling-collection loop on a power-of-two layout: starting from
absolute index 2^m - 1 + i the loop performs exactly m iterations. -/

theorem proofLoopAux_congr (ns : List H256) :
    ∀ f g c, c ≤ f → c ≤ g → proofLoopAux ns f c = proofLoopAux ns g c := by
  intro f
  induction f with
  | zero =>
      intro g c hf _
      interval_cases c
      cases g <;> rfl
  | succ f ih =>
      intro g c hf hg
      match c, g with
      | 0, g => cases g <;> rfl
      | c + 1, g + 1 =>
          have hrec := ih g (c / 2) (by omega) (by omega)
          simp only [proofLoopAux]
          rw [hrec]

theorem proofLoop_pow2 (ns : List H256) :
    ∀ m i, i < 2 ^ m → 2 ^ m + 2 * (i / 2) < ns.length →
      ∃ l, proofLoopAux ns (2 ^ m - 1 + i) (2 ^ m - 1 + i) = some l ∧
        l.length = m := by
  intro m
  induction m with
  | zero =>
      intro i hi _
      interval_cases i
      exact ⟨[], rfl, rfl⟩
  | succ m ih =>
      intro i hi hlen
      have hpow : 2 ^ (m + 1) = 2 * 2 ^ m := by
        rw [pow_succ]
        ring
      have hBpos : 1 ≤ 2 ^ m := Nat.one_le_two_pow
      have hknown : 2 ^ (m + 1) - 1 + i = (2 ^ (m + 1) - 2 + i) + 1 := by omega
      have hsib : (if ((2 ^ (m + 1) - 2 + i) + 1) % 2 = 1
          then (2 ^ (m + 1) - 2 + i) + 2 else 2 ^ (m + 1) - 2 + i) < ns.length := by
        split <;> omega
      obtain ⟨v, hv⟩ : ∃ v, ns.get? (if ((2 ^ (m + 1) - 2 + i) + 1) % 2 = 1
          then (2 ^ (m + 1) - 2 + i) + 2 else 2 ^ (m + 1) - 2 + i) = some v := by
        rw [List.get?_eq_getElem?]
        exact ⟨_, List.getElem?_eq_getElem hsib⟩
      have hhalf : (2 ^ (m + 1) - 2 + i) / 2 = 2 ^ m - 1 + i / 2 := by omega
      obtain ⟨l, hl, hllen⟩ := ih (i / 2) (by omega) (by omega)
      refine ⟨v :: l, ?_, by simp [hllen]⟩
      rw [hknown]
      have hcongr : proofLoopAux ns (2 ^ (m + 1) - 2 + i) ((2 ^ (m + 1) - 2 + i) / 2) =
          proofLoopAux ns ((2 ^ (m + 1) - 2 + i) / 2) ((2 ^ (m + 1) - 2 + i) / 2) :=
        proofLoopAux_congr ns _ _ _ (by omega) le_rfl
      simp only [proofLoopAux]
      rw [hv, hcongr, hhalf, hl]

/-! Reduction of get_proof_from_index to the loop on a power-of-two layout. -/

theorem padOf_even (n : Nat) (h : n % 2 = 0) : padOf n = n := by
  unfold padOf
  split <;> omega

theorem padOf_odd (n : Nat) (h1 : n % 2 = 1) (h2 : 2 ≤ n) : padOf n = n + 1 := by
  unfold padOf
  rw [if_pos ⟨h1, by omega⟩]

theorem get_proof_eq_loop {T : Type} (hsh : T → H256) (data : List T)
    (hp : pow2Chain data.length = true) (h2 : 2 ≤ data.length) (i : Nat)
    (hi : i < data.length) :
    (MerkleTree.new hsh data).get_proof_from_index i =
      proofLoopAux (MerkleTree.new hsh data).nodes
        (2 ^ (numLayers data.length - 1) - 1 + i)
        (2 ^ (numLayers data.length - 1) - 1 + i) := by
  have hN := nodes_length hsh data
  have hsplit := treeSize_split data.length (by omega)
  have hs0 : layerStart data.length 0 = 2 ^ (numLayers data.length - 1) - 1 := by
    have := layerStart_pow2 data.length hp 0
    simpa using this
  have hhead := paddedSizes_head data.length (by omega)
  have hpow0 : 1 ≤ 2 ^ (numLayers data.length - 1) := Nat.one_le_two_pow
  have hm := numLayers_two data.length h2
  have hpowm : 2 ≤ 2 ^ (numLayers data.length - 1) := by
    calc 2 = 2 ^ 1 := by norm_num
    _ ≤ 2 ^ (numLayers data.length - 1) := Nat.pow_le_pow_right (by omega) (by omega)
  rw [MerkleTree.get_proof_from_index, new_data]
  rw [if_pos hi]
  by_cases hpar : data.length % 2 = 1
  · rw [if_pos hpar]
    have hpadOf := padOf_odd data.length hpar (by omega)
    rw [if_pos (by omega)]
    congr 1 <;> omega
  · rw [if_neg hpar]
    have hpadOf := padOf_even data.length (by omega)
    rw [if_pos (by omega)]
    congr 1 <;> omega

theorem leafLayer_size_bounds (n : Nat) (hp : pow2Chain n = true) (h2 : 2 ≤ n) :
    2 ^ (numLayers n - 1) - 2 ≤ padOf n ∧ padOf n ≤ 2 ^ (numLayers n - 1) := by
  have hm := numLayers_two n h2
  have hchain := layerPairs_chain n 0 (by omega)
  have hsize1 := paddedSizes_getD_pow2 n hp 1 le_rfl (by omega)
  have hmem := layerPairs_getD_mem n 1 (by omega)
  have hshape := layerPairs_shape n _ hmem
  have hbounds := padOf_bounds ((layerPairs n).getD 1 (0, 0)).2
  have hhead := paddedSizes_head n (by omega)
  have hs0 := paddedSizes_getD n 0
  have hs1 := paddedSizes_getD n 1
  simp only [Nat.zero_add] at hchain
  have h1 := hchain.1
  have h2c := hchain.2
  have hsh2 := hshape.2
  have hpow : 2 ^ (numLayers n - 1 - 1) + 2 ^ (numLayers n - 1 - 1) =
      2 ^ (numLayers n - 1) := by
    generalize hg : numLayers n - 1 - 1 = t
    have he : numLayers n - 1 = t + 1 := by omega
    rw [he, pow_succ]
    ring
  rw [hsh2] at hs1
  rw [hhead] at hs0
  rw [hs1] at hsize1
  constructor
  · omega
  · omega

/-! Padding slots hold a copy of the last computed digest of their layer. -/

theorem allLayers_getD_padTo {T : Type} (hsh : T → H256) (data : List T) (k : Nat)
    (hk : k < numLayers data.length) :
    ∃ ys : List H256, ys.length = dsizeAt data.length k ∧
      (allLayers hsh data).getD k [] =
        padTo ((layerPairs data.length).getD k (0, 0)) ys := by
  cases k with
  | zero =>
      have h1 : 1 ≤ data.length := by
        by_contra hc
        have h0 : data.length = 0 := by omega
        rw [numLayers, h0] at hk
        simp [layerPairs, layerPairsAux] at hk
      have hdsize := layerPairs_head_dsize data.length h1
      cases hc : layerPairs data.length with
      | nil => exact absurd hc (layerPairs_nonempty _ h1)
      | cons ld rest =>
          have hall : allLayers hsh data =
              padTo ld (data.map hsh) :: buildUpper (padTo ld (data.map hsh)) rest := by
            rw [allLayers, hc]
          refine ⟨data.map hsh, ?_, ?_⟩
          · rw [hc] at hdsize
            rw [List.getD_cons_zero] at hdsize
            rw [List.length_map, dsizeAt, hc, List.getD_cons_zero]
            exact hdsize.symm
          · rw [hall, List.getD_cons_zero, List.getD_cons_zero]
  | succ k =>
      have hchain := allLayers_chain hsh data k hk
      exact ⟨hashUp ((allLayers hsh data).getD k []) (dsizeAt data.length (k + 1)),
        length_hashUp _ _, by rw [hchain]; rfl⟩

theorem padTo_dup_getElem? (ld : Nat × Nat) (ys : List H256)
    (hlen : ys.length = ld.2) (hshape : ld.1 = padOf ld.2)
    (hodd : ld.2 % 2 = 1) (hne1 : ld.2 ≠ 1) :
    (padTo ld ys)[ld.2]? = (padTo ld ys)[ld.2 - 1]? ∧
      ∃ v, (padTo ld ys)[ld.2]? = some v := by
  have hl : ld.1 = ld.2 + 1 := by
    rw [hshape]
    unfold padOf
    rw [if_pos ⟨hodd, hne1⟩]
  have hne : ld.1 ≠ ld.2 := by omega
  have hd1 : 1 ≤ ld.2 := by omega
  rw [padTo, if_pos hne, dupLast]
  have hlast : some (ys.getLastD zeroDigest) = ys[ld.2 - 1]? := by
    rw [List.getLastD_eq_getLast?, List.getLast?_eq_getElem?, hlen,
      List.getElem?_eq_getElem (show ld.2 - 1 < ys.length by omega)]
    rfl
  have hLHS : (ys ++ [ys.getLastD zeroDigest])[ld.2]? =
      some (ys.getLastD zeroDigest) := by
    rw [List.getElem?_append_right (by omega)]
    rw [show ld.2 - ys.length = 0 by omega]
    rfl
  have hRHS : (ys ++ [ys.getLastD zeroDigest])[ld.2 - 1]? = ys[ld.2 - 1]? :=
    List.getElem?_append_left (by omega)
  exact ⟨by rw [hLHS, hRHS, hlast], ys.getLastD zeroDigest, hLHS⟩

/-! Single-step evaluation of the sibling-collection loop. -/

theorem proofLoopAux_zero (ns : List H256) (f : Nat) :
    proofLoopAux ns f 0 = some [] := by
  cases f <;> rfl

theorem proofLoopAux_step (ns : List H256) (f k : Nat) (v : H256)
    (hv : ns.get? (if (k + 1) % 2 = 1 then k + 2 else k) = some v) :
    proofLoopAux ns (f + 1) (k + 1) =
      (proofLoopAux ns f (k / 2)).map fun l => v :: l := by
  simp only [proofLoopAux]
  rw [hv]
  cases proofLoopAux ns f (k / 2) <;> rfl

/-! Claim theorems. -/

/-- Claim C2: for any input of exactly 7 leaves, the node array has exactly 15
entries with layer sizes 8, 4, 2, 1, and the proof for leaf index 2 is exactly
the 3 sibling digests stored at array indices 10, 3, 2, in that order. -/
theorem claim2_seven_leaves {T : Type} (hsh : T → H256) (data : List T)
    (h7 : data.length = 7) :
    (MerkleTree.new hsh data).nodes.length = 15 ∧
    paddedSizes 7 = [8, 4, 2, 1] ∧
    (MerkleTree.new hsh data).get_proof_from_index 2 =
      some [(MerkleTree.new hsh data).nodes.getD 10 zeroDigest,
        (MerkleTree.new hsh data).nodes.getD 3 zeroDigest,
        (MerkleTree.new hsh data).nodes.getD 2 zeroDigest] := by
  have hlen : (MerkleTree.new hsh data).nodes.length = 15 := by
    rw [nodes_length, h7]
    rfl
  refine ⟨hlen, by decide, ?_⟩
  have hget : ∀ idx : Nat, idx < 15 → (MerkleTree.new hsh data).nodes.get? idx =
      some ((MerkleTree.new hsh data).nodes.getD idx zeroDigest) := by
    intro idx hidx
    rw [List.get?_eq_getElem?, List.getD_eq_getElem?_getD,
      List.getElem?_eq_getElem (by omega)]
    rfl
  have s1 : proofLoopAux (MerkleTree.new hsh data).nodes 9 9 =
      (proofLoopAux (MerkleTree.new hsh data).nodes 8 4).map
        fun l => (MerkleTree.new hsh data).nodes.getD 10 zeroDigest :: l := by
    have := proofLoopAux_step (MerkleTree.new hsh data).nodes 8 8
      ((MerkleTree.new hsh data).nodes.getD 10 zeroDigest)
      (by simpa using hget 10 (by norm_num))
    simpa using this
  have s2 : proofLoopAux (MerkleTree.new hsh data).nodes 8 4 =
      (proofLoopAux (MerkleTree.new hsh data).nodes 7 1).map
        fun l => (MerkleTree.new hsh data).nodes.getD 3 zeroDigest :: l := by
    have := proofLoopAux_step (MerkleTree.new hsh data).nodes 7 3
      ((MerkleTree.new hsh data).nodes.getD 3 zeroDigest)
      (by simpa using hget 3 (by norm_num))
    simpa using this
  have s3 : proofLoopAux (MerkleTree.new hsh data).nodes 7 1 =
      (proofLoopAux (MerkleTree.new hsh data).nodes 6 0).map
        fun l => (MerkleTree.new hsh data).nodes.getD 2 zeroDigest :: l := by
    have := proofLoopAux_step (MerkleTree.new hsh data).nodes 6 0
      ((MerkleTree.new hsh data).nodes.getD 2 zeroDigest)
      (by simpa using hget 2 (by norm_num))
    simpa using this
  rw [MerkleTree.get_proof_from_index, new_data, h7, hlen]
  norm_num
  rw [s1, s2, s3, proofLoopAux_zero]
  simp [List.getD_eq_getElem?_getD]

/-- Claim C2 witness at a concrete 7-leaf input. -/
theorem claim2_witness :
    leaves7.length = 7 ∧
    ((MerkleTree.new natLeaf leaves7).nodes.length = 15 ∧
      paddedSizes 7 = [8, 4, 2, 1] ∧
      (MerkleTree.new natLeaf leaves7).get_proof_from_index 2 =
        some [(MerkleTree.new natLeaf leaves7).nodes.getD 10 zeroDigest,
          (MerkleTree.new natLeaf leaves7).nodes.getD 3 zeroDigest,
          (MerkleTree.new natLeaf leaves7).nodes.getD 2 zeroDigest]) :=
  ⟨by decide, claim2_seven_leaves natLeaf leaves7 (by decide)⟩

/-- Claim C3: for a single-leaf tree, root() does return the digest of the
leaf, but requesting the proof for leaf index 0 does not succeed: proof
computes the starting cursor as nodes.len() - data.len() - 1 = 1 - 1 - 1,
a usize subtraction overflow (a Rust panic, modelled as none), because the
odd-length branch fails to exclude data.len() == 1.  This contradicts the
spec, which defines an empty proof for this case. -/
theorem claim3_singleton {T : Type} (hsh : T → H256) (x : T) :
    (MerkleTree.new hsh [x]).root = hsh x ∧
    (MerkleTree.new hsh [x]).get_proof_from_index 0 = none :=
  ⟨rfl, rfl⟩

/-- Claim C4: the empty tree has an empty node array and the all-zero 32-byte
root digest, with no error. -/
theorem claim4_empty {T : Type} (hsh : T → H256) :
    (MerkleTree.new hsh ([] : List T)).nodes.length = 0 ∧
    (MerkleTree.new hsh ([] : List T)).root = zeroDigest ∧
    zeroDigest = List.replicate 32 0 :=
  ⟨rfl, rfl, rfl⟩

/-- Claim C5: requesting a proof for a leaf index at or beyond the leaf count
fails (the slice indexing self.data[index] panics, modelled as none) for every
such index; the index is never clamped to a valid one. -/
theorem claim5_out_of_range {T : Type} (hsh : T → H256) (data : List T)
    (index : Nat) (h : data.length ≤ index) :
    (MerkleTree.new hsh data).get_proof_from_index index = none := by
  rw [MerkleTree.get_proof_from_index, new_data, if_neg (by omega)]

/-- Claim C5 witness: index 5 on a 3-leaf tree. -/
theorem claim5_witness :
    leaves3.length ≤ 5 ∧
    (MerkleTree.new natLeaf leaves3).get_proof_from_index 5 = none :=
  ⟨by decide, claim5_out_of_range natLeaf leaves3 5 (by decide)⟩

/-- Claim C6: for every tree with at least 2 leaves, the digest stored at
every computed (non-padding-copy) slot of every non-leaf layer is the SHA-256
digest of the byte stream formed by the left child digest followed by the
right child digest, with no separator: layer k+1, position j holds
sha256(nodes[start_k + 2j] concatenated with nodes[start_k + 2j + 1]). -/
theorem claim6_internal_hash {T : Type} (hsh : T → H256) (data : List T)
    (h2 : 2 ≤ data.length) (k j : Nat) (hk : k + 1 < numLayers data.length)
    (hj : j < dsizeAt data.length (k + 1)) :
    (MerkleTree.new hsh data).nodes[layerStart data.length (k + 1) + j]? =
      some (sha256
        ((MerkleTree.new hsh data).nodes.getD
            (layerStart data.length k + 2 * j) zeroDigest ++
         (MerkleTree.new hsh data).nodes.getD
            (layerStart data.length k + 2 * j + 1) zeroDigest)) :=
  node_parent_hash hsh data k j hk hj

/-- Claim C6 witness: the 7-leaf tree, first non-leaf layer, position 1. -/
theorem claim6_witness :
    2 ≤ leaves7.length ∧ 0 + 1 < numLayers leaves7.length ∧
      1 < dsizeAt leaves7.length (0 + 1) ∧
    (MerkleTree.new natLeaf leaves7).nodes[layerStart leaves7.length (0 + 1) + 1]? =
      some (sha256
        ((MerkleTree.new natLeaf leaves7).nodes.getD
            (layerStart leaves7.length 0 + 2 * 1) zeroDigest ++
         (MerkleTree.new natLeaf leaves7).nodes.getD
            (layerStart leaves7.length 0 + 2 * 1 + 1) zeroDigest)) :=
  ⟨by decide, by decide, by decide,
    claim6_internal_hash natLeaf leaves7 (by decide) 0 1 (by decide) (by decide)⟩

/-- Claim C7: a layer whose real node count d is odd and greater than 1 gets
exactly one extra slot (padded size d + 1) holding a byte-for-byte copy of the
digest stored at the last real slot of that layer; a layer with even real
count gets no extra slot (padded size = d). -/
theorem claim7_padding {T : Type} (hsh : T → H256) (data : List T) (k : Nat)
    (hk : k < numLayers data.length) :
    (dsizeAt data.length k % 2 = 1 → 1 < dsizeAt data.length k →
      (paddedSizes data.length).getD k 0 = dsizeAt data.length k + 1 ∧
      (MerkleTree.new hsh data).nodes[layerStart data.length k +
          dsizeAt data.length k]? =
        (MerkleTree.new hsh data).nodes[layerStart data.length k +
          (dsizeAt data.length k - 1)]? ∧
      ∃ v, (MerkleTree.new hsh data).nodes[layerStart data.length k +
          dsizeAt data.length k]? = some v) ∧
    (dsizeAt data.length k % 2 = 0 →
      (paddedSizes data.length).getD k 0 = dsizeAt data.length k) := by
  have hmem := layerPairs_getD_mem data.length k hk
  have hshape := layerPairs_shape data.length _ hmem
  have hsizek := paddedSizes_getD data.length k
  constructor
  · intro hodd hgt1
    have hl : (paddedSizes data.length).getD k 0 = dsizeAt data.length k + 1 := by
      rw [hsizek, hshape.2]
      unfold padOf
      rw [if_pos ⟨hodd, by rw [dsizeAt] at hgt1; omega⟩]
      rfl
    obtain ⟨ys, hyslen, hlayer⟩ := allLayers_getD_padTo hsh data k hk
    have hdup := padTo_dup_getElem? ((layerPairs data.length).getD k (0, 0)) ys
      hyslen hshape.2 hodd (by rw [dsizeAt] at hgt1; omega)
    have hlayerlen := allLayers_getD_length hsh data k
    have e1 := new_nodes_getElem? hsh data k (dsizeAt data.length k) hk
      (by rw [hlayerlen, hl]; omega)
    have e2 := new_nodes_getElem? hsh data k (dsizeAt data.length k - 1) hk
      (by rw [hlayerlen, hl]; omega)
    refine ⟨hl, ?_, ?_⟩
    · rw [e1, e2, hlayer]
      exact hdup.1
    · obtain ⟨v, hv⟩ := hdup.2
      exact ⟨v, by rw [e1, hlayer]; exact hv⟩
  · intro heven
    rw [hsizek, hshape.2]
    unfold padOf
    rw [if_neg (by rw [dsizeAt] at heven; omega)]
    rfl

/-- Claim C7 witness: the leaf layer of the 7-leaf tree (d = 7 odd). -/
theorem claim7_witness :
    dsizeAt leaves7.length 0 % 2 = 1 ∧ 1 < dsizeAt leaves7.length 0 ∧
      0 < numLayers leaves7.length ∧
    ((paddedSizes leaves7.length).getD 0 0 = dsizeAt leaves7.length 0 + 1 ∧
     (MerkleTree.new natLeaf leaves7).nodes[layerStart leaves7.length 0 +
         dsizeAt leaves7.length 0]? =
       (MerkleTree.new natLeaf leaves7).nodes[layerStart leaves7.length 0 +
         (dsizeAt leaves7.length 0 - 1)]? ∧
     ∃ v, (MerkleTree.new natLeaf leaves7).nodes[layerStart leaves7.length 0 +
         dsizeAt leaves7.length 0]? = some v) :=
  ⟨by decide, by decide, by decide,
    (claim7_padding natLeaf leaves7 0 (by decide)).1 (by decide) (by decide)⟩

/-- Claim C8: the length of the node array is the deterministic function
treeSize of the leaf count alone, where treeSize sums the padded layer sizes
produced by the recurrence: start with size n; an odd size above 1 is padded
to size + 1, the padded size is recorded, and the next size is padded / 2;
size 1 is the root layer and stops the recurrence. -/
theorem claim8_tree_size {T : Type} (hsh : T → H256) (data : List T) :
    (MerkleTree.new hsh data).nodes.length = treeSize data.length :=
  nodes_length hsh data

/-- Claim C1 counterexample: in the 9-leaf tree (layer sizes 10, 6, 4, 2, 1;
layer starts 13, 7, 3, 1, 0) the parent of node 13 - the node whose digest is
the hash of nodes 13 and 14 - is node 7, while the canonical law names
(13 - 1) >> 1 = 6; node 6 is a padding copy and does not hold that hash, so
the law fails globally for n = 9. -/
theorem claim1_counterexample :
    (MerkleTree.new natLeaf leaves9).nodes[7]? =
      some (sha256 ((MerkleTree.new natLeaf leaves9).nodes.getD 13 zeroDigest ++
        (MerkleTree.new natLeaf leaves9).nodes.getD 14 zeroDigest)) ∧
    (MerkleTree.new natLeaf leaves9).nodes[(13 - 1) / 2]? ≠
      some (sha256 ((MerkleTree.new natLeaf leaves9).nodes.getD 13 zeroDigest ++
        (MerkleTree.new natLeaf leaves9).nodes.getD 14 zeroDigest)) := by
  decide

/-- Claim C1 witness: in the 7-leaf tree (whose non-leaf layers have
power-of-two padded sizes) node 13 is odd and its parent at (13 - 1) / 2 = 6
holds the hash of nodes 13 and 14. -/
theorem claim1_witness :
    pow2Chain leaves7.length = true ∧ 0 < 13 ∧
      13 < (MerkleTree.new natLeaf leaves7).nodes.length ∧
    (MerkleTree.new natLeaf leaves7).nodes[(13 - 1) / 2]? =
      some (sha256 ((MerkleTree.new natLeaf leaves7).nodes.getD 13 zeroDigest ++
        (MerkleTree.new natLeaf leaves7).nodes.getD 14 zeroDigest)) :=
  ⟨by decide, by decide, by decide,
    (merkle_parent_sibling_law natLeaf leaves7 (by decide) 13 (by decide)
      (by decide)).1 (by decide)⟩

/-- Claim C9 (amended): for every tree whose non-leaf layers have power-of-two
padded sizes and at least 2 leaves, the proof for every valid leaf index i
succeeds and contains exactly ceil(log2(n)) sibling digests, the unique length
len with n <= 2^len < 2n.  (The claim fails for other leaf counts, and the
n = 1 case panics, see C3.) -/
theorem claim9_proof_length {T : Type} (hsh : T → H256) (data : List T)
    (hp : pow2Chain data.length = true) (h2 : 2 ≤ data.length) (i : Nat)
    (hi : i < data.length) :
    ∃ pl, (MerkleTree.new hsh data).get_proof_from_index i = some pl ∧
      data.length ≤ 2 ^ pl.length ∧ 2 ^ pl.length < 2 * data.length := by
  have hN := nodes_length hsh data
  have hsplit := treeSize_split data.length (by omega)
  have hs0 : layerStart data.length 0 = 2 ^ (numLayers data.length - 1) - 1 := by
    have := layerStart_pow2 data.length hp 0
    simpa using this
  have hhead := paddedSizes_head data.length (by omega)
  have hm := numLayers_two data.length h2
  have hbounds := leafLayer_size_bounds data.length hp h2
  have hpadb := padOf_bounds data.length
  have hpow0 : 1 ≤ 2 ^ (numLayers data.length - 1) := Nat.one_le_two_pow
  have hpadeven : padOf data.length % 2 = 0 := by
    unfold padOf
    split <;> omega
  obtain ⟨pl, hpl, hplen⟩ := proofLoop_pow2 (MerkleTree.new hsh data).nodes
    (numLayers data.length - 1) i (by omega) (by omega)
  refine ⟨pl, ?_, ?_, ?_⟩
  · rw [get_proof_eq_loop hsh data hp h2 i hi]
    exact hpl
  · rw [hplen]
    omega
  · rw [hplen]
    by_cases hm1 : numLayers data.length - 1 ≤ 1
    · have hle : 2 ^ (numLayers data.length - 1) ≤ 2 := by
        calc 2 ^ (numLayers data.length - 1) ≤ 2 ^ 1 :=
          Nat.pow_le_pow_right (by omega) hm1
        _ = 2 := by norm_num
      omega
    · by_cases hm2 : numLayers data.length - 1 = 2
      · have hn2 : data.length ≠ 2 := by
          intro hn
          have hnl2 : numLayers 2 = 2 := by decide
          rw [hn, hnl2] at hm2
          omega
        have h4 : 2 ^ (numLayers data.length - 1) = 4 := by
          rw [hm2]
          norm_num
        omega
      · have hm3 : 3 ≤ numLayers data.length - 1 := by omega
        have h8 : 8 ≤ 2 ^ (numLayers data.length - 1) := by
          calc (8 : Nat) = 2 ^ 3 := by norm_num
          _ ≤ 2 ^ (numLayers data.length - 1) :=
            Nat.pow_le_pow_right (by omega) hm3
        omega

/-- Claim C9 counterexample: in the 9-leaf tree the proof for leaf 0 has 3
sibling digests, but ceil(log2(9)) = 4 (since 2^3 < 9 <= 2^4). -/
theorem claim9_counterexample :
    ((MerkleTree.new natLeaf leaves9).get_proof_from_index 0).map List.length =
      some 3 ∧ 2 ^ 3 < 9 ∧ 9 ≤ 2 ^ 4 := by
  decide

/-- Claim C9 witness: the 7-leaf tree, leaf 2, gets a 3-sibling proof and
7 <= 2^3 < 14. -/
theorem claim9_witness :
    pow2Chain leaves7.length = true ∧ 2 ≤ leaves7.length ∧ 2 < leaves7.length ∧
    (∃ pl, (MerkleTree.new natLeaf leaves7).get_proof_from_index 2 = some pl ∧
      leaves7.length ≤ 2 ^ pl.length ∧ 2 ^ pl.length < 2 * leaves7.length) :=
  ⟨by decide, by decide, by decide,
    claim9_proof_length natLeaf leaves7 (by decide) (by decide) 2 (by decide)⟩

/-- Claim C10: Transaction::sign and Transaction::verify serialize only the
input and output vectors into the raw message; two transactions with equal
inputs and equal outputs but arbitrary (possibly different) authorization
vectors produce the same signature under the same keypair and the same
verification result under the same public key and signature. -/
theorem claim10_sign_verify_ignore_authorization (t1 t2 : Transaction)
    (kp : KeyPair) (pk : PubKey) (sig : Signature)
    (hin : t1.input = t2.input) (hout : t1.output = t2.output) :
    t1.sign kp = t2.sign kp ∧ t1.verify pk sig = t2.verify pk sig := by
  rw [Transaction.sign, Transaction.sign, Transaction.verify, Transaction.verify,
    hin, hout]
  exact ⟨rfl, rfl⟩

/-- Claim C10 witness: two concrete transactions, identical inputs and
outputs, different authorization vectors. -/
theorem claim10_witness :
    tx1.input = tx2.input ∧ tx1.output = tx2.output ∧
    tx1.authorization.length ≠ tx2.authorization.length ∧
    (tx1.sign kp0 = tx2.sign kp0 ∧ tx1.verify pk0 [7] = tx2.verify pk0 [7]) :=
  ⟨rfl, rfl, by decide,
    claim10_sign_verify_ignore_authorization tx1 tx2 kp0 pk0 [7] rfl rfl⟩
